import Mathlib

/-!
Verification of the client-side document ingestion and streaming-response
reconciliation pipeline of the `latency` repository.

The TypeScript sources are shallowly embedded as Lean definitions:

* `src/utils/imageUtils.ts`       : `normalizePass` / `applyConvolution`
  (canvas pixel data, a flat `Uint8ClampedArray` with stride 4, is modelled
  as a `List Pix`; floating-point arithmetic on pixel values is modelled
  exactly over `ℚ`, and the clamping/rounding a `Uint8ClampedArray` store
  performs is `q2byte`).
* `src/services/fileService.ts`   : `parseDocumentPath`, `extractTextFromPdf`
  (a PDF that has been loaded and had its per-page text items extracted is
  modelled as a `List (List (List Char))`: pages, each a list of item
  strings; the remote recognition service is an oracle `ℕ → Except Unit
  (Option (List Char))` giving, per page number, either a thrown error, a
  response without text, or a response with text).
* `src/services/geminiService.ts` : `performVisionOcr`, `safeJsonParse`
  (with a JSON parser `jsonParse` modelling `JSON.parse`, including the
  position information of its error messages that `safeJsonParse` inspects).
* `src/components/CognitiveSearch.tsx` : `extractFieldFromPartialJson`.
* `src/components/FileUpload.tsx` : `handleFileChange`
  (per-file upload state machine).

JavaScript strings are modelled as `List Char`.
-/

namespace Latency

/-! ## Generic string / list utilities -/

/-- Whitespace trimmed by JavaScript `String.prototype.trim`
(the common members of the WhiteSpace / LineTerminator classes). -/
def trimWs (c : Char) : Bool :=
  c = ' ' || c = '\t' || c = '\n' || c = '\r' || c = '\x0b' || c = '\x0c' || c = '\xa0'

/-- Whitespace accepted by `JSON.parse` between tokens. -/
def jsonWs (c : Char) : Bool :=
  c = ' ' || c = '\t' || c = '\n' || c = '\r'

/-- JavaScript `s.trim()`. -/
def trimList (l : List Char) : List Char :=
  ((l.dropWhile trimWs).reverse.dropWhile trimWs).reverse

/-- JavaScript `s.indexOf(pat)` (for a non-empty pattern), as an `Option`:
index of the first occurrence of `pat` as a contiguous sublist. -/
def findSub (pat : List Char) : List Char → Option ℕ
  | [] => if pat.isEmpty then some 0 else none
  | c :: rest =>
    if pat.isPrefixOf (c :: rest) then some 0
    else (findSub pat rest).map (· + 1)

/-- JavaScript `s.includes(pat)`. -/
def containsSub (pat l : List Char) : Bool :=
  (findSub pat l).isSome

/-- JavaScript `s.indexOf(c)` for a single character. -/
def firstIdx (c : Char) (l : List Char) : Option ℕ :=
  findSub [c] l

/-- JavaScript `s.lastIndexOf(c)` for a single character. -/
def lastIdx (c : Char) (l : List Char) : Option ℕ :=
  (findSub [c] l.reverse).map (fun i => l.length - 1 - i)

/-- JavaScript `s.substring(a, b)` (for `a ≤ b`). -/
def subStr (l : List Char) (a b : ℕ) : List Char :=
  (l.take b).drop a

/-! ## `src/utils/imageUtils.ts` -/

/-- One RGBA pixel of canvas `ImageData` (four consecutive entries of the
flat `data` array). -/
structure Pix where
  r : ℕ
  g : ℕ
  b : ℕ
  a : ℕ
  deriving DecidableEq, Repr

/-- `(data[i] + data[i+1] + data[i+2]) / 3` — the per-pixel channel average
the min/max scan of `preprocessCanvas` is computed over. -/
def avgQ (p : Pix) : ℚ :=
  ((p.r : ℚ) + (p.g : ℚ) + (p.b : ℚ)) / 3

/-- `0.2126*data[i] + 0.7152*data[i+1] + 0.0722*data[i+2]` — the weighted
luminance used in the rescaling pass of `preprocessCanvas`. -/
def lumQ (p : Pix) : ℚ :=
  0.2126 * (p.r : ℚ) + 0.7152 * (p.g : ℚ) + 0.0722 * (p.b : ℚ)

/-- Round half to even (the rounding a store into a `Uint8ClampedArray`
performs after clamping). -/
def rhe (q : ℚ) : ℤ :=
  if q - ⌊q⌋ < 1/2 then ⌊q⌋
  else if q - ⌊q⌋ > 1/2 then ⌊q⌋ + 1
  else if ⌊q⌋ % 2 = 0 then ⌊q⌋ else ⌊q⌋ + 1

/-- Conversion performed by a store into a `Uint8ClampedArray`:
clamp to `[0, 255]`, then round half to even. -/
def q2byte (q : ℚ) : ℕ :=
  (rhe (max 0 (min 255 q))).toNat

/-- First loop of `preprocessCanvas`: one pass over the image tracking the
minimum and maximum of the per-pixel channel average (`min` starts at 255,
`max` at 0; `if (avg < min) min = avg; if (avg > max) max = avg`). -/
def scanMinMax (img : List Pix) : ℚ × ℚ :=
  img.foldl
    (fun mM p =>
      (if avgQ p < mM.1 then avgQ p else mM.1,
       if avgQ p > mM.2 then avgQ p else mM.2))
    (255, 0)

/-- Gray level computed in the second loop of `preprocessCanvas` for one
pixel, given the scan minimum `mn` and the guarded range `rg`:
`gray = ((lum - min) / range) * 255`, then `if (gray > 185) gray = 255`,
then `if (gray < 70) gray = 0`. -/
def normalizeGray (mn rg : ℚ) (p : Pix) : ℚ :=
  let gray := (lumQ p - mn) / rg * 255
  let gray1 := if gray > 185 then 255 else gray
  if gray1 < 70 then 0 else gray1

/-- Luminance-normalization pass of `preprocessCanvas`
(`src/utils/imageUtils.ts` lines 13–32): scan min/max of the channel
average, guard the range (`max - min || 1`), rescale the weighted luminance,
threshold, and write the gray value to all three color channels, leaving
alpha unchanged. -/
def normalizePass (img : List Pix) : List Pix :=
  let mM := scanMinMax img
  let rg := if mM.2 - mM.1 = 0 then 1 else mM.2 - mM.1
  img.map (fun p =>
    let g := q2byte (normalizeGray mM.1 rg p)
    ⟨g, g, g, p.a⟩)

/-- The normalization pass as the specification sentence of claim C6 words
it: the minimum and maximum are tracked over the same *weighted luminance*
that is rescaled (everything else as in the code). Used to compare the
spec's description against `normalizePass`. -/
def normalizeSpecClaim (img : List Pix) : List Pix :=
  let mn := (img.map lumQ).foldl min 255
  let mx := (img.map lumQ).foldl max 0
  let rg := if mx - mn = 0 then 1 else mx - mn
  img.map (fun p =>
    let g := q2byte (normalizeGray mn rg p)
    ⟨g, g, g, p.a⟩)

/-- The normalization pass as amended: the min/max are tracked over the
per-pixel *channel average*, declaratively (separate folds over the mapped
list) rather than via the code's single pair-accumulator loop. -/
def normalizeSpecAmended (img : List Pix) : List Pix :=
  let mn := (img.map avgQ).foldl min 255
  let mx := (img.map avgQ).foldl max 0
  let rg := if mx - mn = 0 then 1 else mx - mn
  img.map (fun p =>
    let g := q2byte (normalizeGray mn rg p)
    ⟨g, g, g, p.a⟩)

/-- A canvas image: width, height, and the pixel data in row-major order
(`data.length = w * h`). -/
structure Image where
  w : ℕ
  h : ℕ
  data : List Pix
  deriving DecidableEq, Repr

/-- `Math.round(Math.sqrt n)` for a natural `n`. -/
def roundSqrt (n : ℕ) : ℕ :=
  let s := Nat.sqrt n
  if s * s + s < n then s + 1 else s

/-- `Math.min(255, Math.max(0, z))`, landing in `[0, 255]`. -/
def clampInt (z : ℤ) : ℕ :=
  (min 255 (max 0 z)).toNat

/-- Pixel read `srcData[(y*sw + x)*4 .. +3]` (callers guard bounds; the
default is never reached under the source's bounds check). -/
def getPx (img : Image) (x y : ℕ) : Pix :=
  img.data.getD (y * img.w + x) ⟨0, 0, 0, 0⟩

/-- One output channel of `applyConvolution` at `(x, y)`: the kernel-
weighted sum over the `side × side` neighborhood, skipping out-of-bounds
neighbors (`scy >= 0 && scy < sh && scx >= 0 && scx < sw`). -/
def convSum (img : Image) (kernel : List ℤ) (side half : ℕ)
    (ch : Pix → ℕ) (x y : ℕ) : ℤ :=
  ((List.range side).map (fun (cy : ℕ) =>
    ((List.range side).map (fun (cx : ℕ) =>
      let scy : ℤ := (y : ℤ) + (cy : ℤ) - (half : ℤ)
      let scx : ℤ := (x : ℤ) + (cx : ℤ) - (half : ℤ)
      if 0 ≤ scy ∧ scy < (img.h : ℤ) ∧ 0 ≤ scx ∧ scx < (img.w : ℤ) then
        kernel.getD (cy * side + cx) 0 * (ch (getPx img scx.toNat scy.toNat) : ℤ)
      else 0)).sum)).sum

/-- `applyConvolution` (`src/utils/imageUtils.ts` lines 43–76): convolve
the snapshot `src` with `kernel`, clamping each channel to `[0, 255]` and
forcing alpha to 255. The output is built into a fresh buffer
(`ctx.createImageData`), so every neighbor read comes from the
pre-convolution snapshot. -/
def applyConvolution (img : Image) (kernel : List ℤ) : Image :=
  let side := roundSqrt kernel.length
  let half := side / 2
  { w := img.w, h := img.h,
    data :=
      ((List.range img.h).map (fun y =>
        (List.range img.w).map (fun x =>
          ({ r := clampInt (convSum img kernel side half Pix.r x y),
             g := clampInt (convSum img kernel side half Pix.g x y),
             b := clampInt (convSum img kernel side half Pix.b x y),
             a := 255 } : Pix)))).flatten }

/-- The fixed sharpening kernel of `preprocessCanvas`. -/
def sharpenKernel : List ℤ := [0, -1, 0, -1, 5, -1, 0, -1, 0]

/-- Channel read with zero outside the image — the specification's
"out-of-bounds neighbors contribute zero" access, for stating what a
convolution output pixel must equal. -/
def nbCh (img : Image) (ch : Pix → ℕ) (x y : ℤ) : ℤ :=
  if 0 ≤ y ∧ y < (img.h : ℤ) ∧ 0 ≤ x ∧ x < (img.w : ℤ) then
    (ch (getPx img x.toNat y.toNat) : ℤ)
  else 0

/-! ## `src/services/fileService.ts` -/

/-- The four extraction paths `parseDocument` dispatches to. -/
inductive DocPath where
  | pdf
  | image
  | docx
  | plainText
  deriving DecidableEq, Repr

/-- Dispatch logic of `parseDocument` (`src/services/fileService.ts`
lines 14–38), checked in order, first match wins:
`file.type === 'application/pdf' || file.name.endsWith('.pdf')`, then
`file.type.startsWith('image/')`, then `file.name.endsWith('.docx')`,
else the plain-text fallback. String comparisons are exact
(case-sensitive), as in JavaScript. -/
def parseDocumentPath (name mime : List Char) : DocPath :=
  if mime = "application/pdf".data ∨ ".pdf".data.isSuffixOf name then .pdf
  else if "image/".data.isPrefixOf mime then .image
  else if ".docx".data.isSuffixOf name then .docx
  else .plainText

/-- `items.map(item => item.str).join(" ")` for one page's text content. -/
def joinSp (items : List (List Char)) : List Char :=
  List.intercalate [' '] items

/-- The embedded text layer of a loaded PDF:
`fullText += textContent.items.map(i => i.str).join(" ") + "\n"` per page. -/
def embeddedText (pages : List (List (List Char))) : List Char :=
  (pages.map (fun items => joinSp items ++ ['\n'])).flatten

/-- `performVisionOcr` (`src/services/geminiService.ts` lines 71–91):
the response of one recognition call. A successful call returns
`response.text || ""`; *any* thrown error is caught (`catch`) and the
empty string is returned — the function never throws. -/
def performVisionOcr (resp : Except Unit (Option (List Char))) : List Char :=
  match resp with
  | .ok (some t) => t
  | .ok none => []
  | .error _ => []

/-- `--- PAGE ${i} ---\n${extractedText}\n\n` appended per recognized page. -/
def pageMark (i : ℕ) (txt : List Char) : List Char :=
  "--- PAGE ".data ++ (toString i).data ++ " ---\n".data ++ txt ++ "\n\n".data

/-- `extractTextFromPdf` (`src/services/fileService.ts` lines 40–84) on an
already-loaded PDF (pages of extracted text items) with a per-page
recognition oracle. Returns the produced text together with a flag
recording whether the recognition fallback ran (the `onStatusChange(true)`
branch). The fallback runs when
`fullText.trim().length < 50 * pdf.numPages && pdf.numPages > 0`;
it rebuilds the text from per-page recognition responses in ascending page
order. -/
def extractTextFromPdf (pages : List (List (List Char)))
    (oracle : ℕ → Except Unit (Option (List Char))) : List Char × Bool :=
  let fullText := embeddedText pages
  if (trimList fullText).length < 50 * pages.length ∧ 0 < pages.length then
    (((List.range pages.length).map
        (fun j => pageMark (j + 1) (performVisionOcr (oracle (j + 1))))).flatten,
     true)
  else
    (fullText, false)

/-! ## `src/components/FileUpload.tsx` (`src/unnamed/part_000`) -/

/-- Lifecycle status of an uploaded document. -/
inductive UploadStatus where
  | processing
  | ready
  | error
  deriving DecidableEq, Repr

/-- One entry of the `files` state array. -/
structure Entry where
  name : List Char
  mime : List Char
  content : List Char
  status : UploadStatus
  deriving DecidableEq, Repr

instance {ε α : Type} [DecidableEq ε] [DecidableEq α] : DecidableEq (Except ε α) := fun x y =>
  match x, y with
  | .ok a, .ok b => if h : a = b then .isTrue (by rw [h]) else .isFalse (by simp [h])
  | .error a, .error b => if h : a = b then .isTrue (by rw [h]) else .isFalse (by simp [h])
  | .ok _, .error _ => .isFalse (by simp)
  | .error _, .ok _ => .isFalse (by simp)

/-- One file of a selection batch: its name, declared MIME type, and the
outcome of `parseDocument` on it (`.ok text`, or `.error` when extraction
throws). -/
structure BatchFile where
  name : List Char
  mime : List Char
  outcome : Except Unit (List Char)
  deriving DecidableEq, Repr

/-- Status of a document after its extraction resolves or throws
(the `try`/`catch` of `handleFileChange`). -/
def statusAfterExtraction (res : Except Unit (List Char)) : UploadStatus :=
  match res with
  | .ok _ => .ready
  | .error _ => .error

/-- The placeholder entries added to the UI immediately
(`status: 'processing'`, empty content). -/
def placeholders (batch : List BatchFile) : List Entry :=
  batch.map (fun f => ⟨f.name, f.mime, [], .processing⟩)

/-- One loop iteration of `handleFileChange`: on success, every entry
whose name equals the file's name becomes `ready` with the text attached;
on a thrown extraction, every such entry becomes `error` (content left as
it was, i.e. discarded placeholder content). -/
def applyOutcome (st : List Entry) (f : BatchFile) : List Entry :=
  match f.outcome with
  | .ok text =>
    st.map (fun e => if e.name = f.name then { e with content := text, status := .ready } else e)
  | .error _ =>
    st.map (fun e => if e.name = f.name then { e with status := .error } else e)

/-- The effect of one `handleFileChange` loop iteration on a single state
entry (the body of the `prev.map` update, applied pointwise). -/
def stepEntry (e : Entry) (f : BatchFile) : Entry :=
  match f.outcome with
  | .ok text => if e.name = f.name then { e with content := text, status := .ready } else e
  | .error _ => if e.name = f.name then { e with status := .error } else e

/-- `handleFileChange` (`src/unnamed/part_000` lines 16–49): add
placeholders for the whole batch, then process the files sequentially,
each `try`/`catch`-isolated. -/
def handleFileChange (prev : List Entry) (batch : List BatchFile) : List Entry :=
  batch.foldl applyOutcome (prev ++ placeholders batch)

/-! ## `src/components/CognitiveSearch.tsx` — partial-JSON field extraction -/

/-- The search string `"${field}": "` built by `extractFieldFromPartialJson`. -/
def fieldMarker (field : List Char) : List Char :=
  '"' :: (field ++ ['"', ':', ' ', '"'])

/-- The copy loop of `extractFieldFromPartialJson`: starting just after the
opening quote, copy characters until a `"` whose preceding buffer character
(`json[i-1]`, threaded here as `prev`) is not a backslash; if the buffer
ends first, keep everything copied so far. -/
def scanStr (prev : Char) : List Char → List Char
  | [] => []
  | c :: rest => if c = '"' ∧ prev ≠ '\\' then [] else c :: scanStr c rest

/-- The raw (pre-unescape) content `extractFieldFromPartialJson` collects:
empty when the marker does not occur; otherwise the scan starting right
after the first occurrence of the marker (whose last character, the
opening quote, is the initial `json[i-1]`). -/
def extractRaw (json field : List Char) : List Char :=
  match findSub (fieldMarker field) json with
  | none => []
  | some p => scanStr '"' (json.drop (p + (fieldMarker field).length))

/-- JavaScript `s.replace(/\\b/g, r)` for a two-character escape pattern
`\b`: left-to-right, non-overlapping replacement of the pair by `r`. -/
def replEsc (b r : Char) : List Char → List Char
  | [] => []
  | [c] => [c]
  | c :: d :: rest =>
    if c = '\\' ∧ d = b then r :: replEsc b r rest
    else c :: replEsc b r (d :: rest)

/-- `.replace(/\\n/g, '\n').replace(/\\"/g, '"')` — the display unescaping. -/
def unescape (l : List Char) : List Char :=
  replEsc '"' '"' (replEsc 'n' '\n' l)

/-- `extractFieldFromPartialJson` (`src/components/CognitiveSearch.tsx`
lines 93–113). -/
def extractFieldFromPartialJson (json field : List Char) : List Char :=
  unescape (extractRaw json field)

/-- Index of the scan stop, as the specification words it: the first
position holding a double-quote not immediately preceded by a backslash
(the character before the scan's first position being the marker's opening
quote), or the buffer length when there is none. -/
def stopIdx (post : List Char) : ℕ :=
  List.findIdx (fun pr : Char × Char => pr.2 == '"' && pr.1 != '\\')
    (List.zip ('"' :: post) post)

/-- The scanned value as the specification words it: everything up to
(excluding) the first unescaped double-quote, or the whole rest of the
buffer. -/
def scanSpec (post : List Char) : List Char :=
  post.take (stopIdx post)

/-! ## `src/services/geminiService.ts` — `safeJsonParse` and `JSON.parse` -/

/-- A JSON value as `JSON.parse` produces it. Numbers keep their source
literal (only zeroness matters to `safeJsonParse`'s truthiness tests;
double-precision rounding of the numeric value is not modelled). -/
inductive Json where
  | null
  | bool (b : Bool)
  | num (lit : List Char)
  | str (s : List Char)
  | arr (elems : List Json)
  | obj (members : List (List Char × Json))

/-- A `JSON.parse` failure: either a message carrying the character
position of the offending token (`... at position N`, which `safeJsonParse`
extracts with a regex), or a message without one (`Unexpected end of JSON
input`). -/
inductive JErr where
  | atPos (n : ℕ)
  | noPos
  deriving DecidableEq, Repr

/-- Skip JSON whitespace, tracking the character position. -/
def skipWs : ℕ → List Char → ℕ × List Char
  | pos, [] => (pos, [])
  | pos, c :: rest => if jsonWs c then skipWs (pos + 1) rest else (pos, c :: rest)

/-- Value of a hexadecimal digit. -/
def hexVal (c : Char) : Option ℕ :=
  if '0' ≤ c ∧ c ≤ '9' then some (c.toNat - '0'.toNat)
  else if 'a' ≤ c ∧ c ≤ 'f' then some (c.toNat - 'a'.toNat + 10)
  else if 'A' ≤ c ∧ c ≤ 'F' then some (c.toNat - 'A'.toNat + 10)
  else none

/-- Single-character JSON string escapes. -/
def escMap (c : Char) : Option Char :=
  if c = '"' then some '"'
  else if c = '\\' then some '\\'
  else if c = '/' then some '/'
  else if c = 'b' then some '\x08'
  else if c = 'f' then some '\x0c'
  else if c = 'n' then some '\n'
  else if c = 'r' then some '\r'
  else if c = 't' then some '\t'
  else none

/-- Body of a JSON string, after the opening quote. Returns the decoded
characters, the position after the closing quote, and the rest. The fuel
only needs to exceed the input length. -/
def pStr : ℕ → ℕ → List Char → Except JErr (List Char × ℕ × List Char)
  | _, _, [] => .error .noPos
  | 0, _, _ :: _ => .error .noPos
  | fuel + 1, pos, c :: rest =>
    if c = '"' then .ok ([], pos + 1, rest)
    else if c = '\\' then
      match rest with
      | [] => .error .noPos
      | e :: r2 =>
        if e = 'u' then
          match r2 with
          | h1 :: h2 :: h3 :: h4 :: r3 =>
            match hexVal h1, hexVal h2, hexVal h3, hexVal h4 with
            | some a, some b, some c4, some d =>
              (fun x : List Char × ℕ × List Char =>
                (Char.ofNat (((a * 16 + b) * 16 + c4) * 16 + d) :: x.1, x.2))
                <$> pStr fuel (pos + 6) r3
            | _, _, _, _ => .error (.atPos (pos + 2))
          | _ => .error .noPos
        else
          match escMap e with
          | some c2 =>
            (fun x : List Char × ℕ × List Char => (c2 :: x.1, x.2)) <$> pStr fuel (pos + 2) r2
          | none => .error (.atPos (pos + 1))
    else if c.toNat < 32 then .error (.atPos pos)
    else (fun x : List Char × ℕ × List Char => (c :: x.1, x.2)) <$> pStr fuel (pos + 1) rest

/-- Longest leading run of decimal digits. -/
def digitSpan (l : List Char) : List Char × List Char :=
  l.span (fun c => c.isDigit)

/-- Optional fraction part `.digits` of a JSON number. -/
def pFrac (pos : ℕ) (l : List Char) : Except JErr (List Char × ℕ × List Char) :=
  match l with
  | '.' :: r =>
    match digitSpan r with
    | (fd, l3) =>
      if fd.isEmpty then .error (.atPos (pos + 1))
      else .ok ('.' :: fd, pos + 1 + fd.length, l3)
  | _ => .ok ([], pos, l)

/-- Optional exponent part `e[+-]digits` of a JSON number. -/
def pExp (pos : ℕ) (l : List Char) : Except JErr (List Char × ℕ × List Char) :=
  match l with
  | [] => .ok ([], pos, [])
  | e :: r =>
    if e = 'e' ∨ e = 'E' then
      match r with
      | [] => .error .noPos
      | s :: r2 =>
        if s = '+' ∨ s = '-' then
          match digitSpan r2 with
          | (ed, l4) =>
            if ed.isEmpty then .error (.atPos (pos + 2))
            else .ok (e :: s :: ed, pos + 2 + ed.length, l4)
        else
          match digitSpan r with
          | (ed, l4) =>
            if ed.isEmpty then .error (.atPos (pos + 1))
            else .ok (e :: ed, pos + 1 + ed.length, l4)
    else .ok ([], pos, e :: r)

/-- A JSON number (`-? (0 | [1-9][0-9]*) frac? exp?`), keeping its literal.
The caller has checked the first character is `-` or a digit. -/
def pNum (pos : ℕ) (l : List Char) : Except JErr (Json × ℕ × List Char) :=
  match (match l with
         | '-' :: r => (['-'], pos + 1, r)
         | _ => (([] : List Char), pos, l)) with
  | (sgn, pos1, l1) =>
    match digitSpan l1 with
    | (ds, l2) =>
      if ds.isEmpty then .error (.atPos pos1)
      else if 2 ≤ ds.length ∧ ds.headD ' ' = '0' then .error (.atPos (pos1 + 1))
      else
        match pFrac (pos1 + ds.length) l2 with
        | .error e => .error e
        | .ok (frac, pos3, l3) =>
          match pExp pos3 l3 with
          | .error e => .error e
          | .ok (ex, pos4, l4) => .ok (.num (sgn ++ ds ++ frac ++ ex), pos4, l4)

mutual

/-- One JSON value, fuel-indexed (the fuel bounds the recursion depth; a
fuel exceeding the input length never runs out, as every nested call has
consumed input). -/
def pVal : ℕ → ℕ → List Char → Except JErr (Json × ℕ × List Char)
  | 0, _, _ => .error .noPos
  | fuel + 1, pos0, l0 =>
    match skipWs pos0 l0 with
    | (pos, l) =>
      match l with
      | [] => .error .noPos
      | c :: rest =>
        if c = '{' then
          match skipWs (pos + 1) rest with
          | (p2, r2) =>
            match r2 with
            | '}' :: r3 => .ok (.obj [], p2 + 1, r3)
            | _ => pMembers fuel p2 r2 []
        else if c = '[' then
          match skipWs (pos + 1) rest with
          | (p2, r2) =>
            match r2 with
            | ']' :: r3 => .ok (.arr [], p2 + 1, r3)
            | _ => pElems fuel p2 r2 []
        else if c = '"' then
          match pStr (rest.length + 1) (pos + 1) rest with
          | .error e => .error e
          | .ok (s, p2, r2) => .ok (.str s, p2, r2)
        else if c = 't' then
          if "true".data.isPrefixOf (c :: rest) then .ok (.bool true, pos + 4, (c :: rest).drop 4)
          else .error (.atPos pos)
        else if c = 'f' then
          if "false".data.isPrefixOf (c :: rest) then .ok (.bool false, pos + 5, (c :: rest).drop 5)
          else .error (.atPos pos)
        else if c = 'n' then
          if "null".data.isPrefixOf (c :: rest) then .ok (.null, pos + 4, (c :: rest).drop 4)
          else .error (.atPos pos)
        else if c = '-' ∨ c.isDigit then pNum pos (c :: rest)
        else .error (.atPos pos)

/-- Members of a JSON object after `{` (at least one member present). -/
def pMembers : ℕ → ℕ → List Char → List (List Char × Json) →
    Except JErr (Json × ℕ × List Char)
  | 0, _, _, _ => .error .noPos
  | fuel + 1, pos0, l0, acc =>
    match skipWs pos0 l0 with
    | (pos, l) =>
      match l with
      | [] => .error .noPos
      | c :: rest =>
        if c = '"' then
          match pStr (rest.length + 1) (pos + 1) rest with
          | .error e => .error e
          | .ok (k, p2, r2) =>
            match skipWs p2 r2 with
            | (p3, r3) =>
              match r3 with
              | ':' :: r4 =>
                match pVal fuel (p3 + 1) r4 with
                | .error e => .error e
                | .ok (v, p5, r5) =>
                  match skipWs p5 r5 with
                  | (p6, r6) =>
                    match r6 with
                    | ',' :: r7 => pMembers fuel (p6 + 1) r7 (acc ++ [(k, v)])
                    | '}' :: r7 => .ok (.obj (acc ++ [(k, v)]), p6 + 1, r7)
                    | [] => .error .noPos
                    | _ => .error (.atPos p6)
              | [] => .error .noPos
              | _ => .error (.atPos p3)
        else .error (.atPos pos)

/-- Elements of a JSON array after `[` (at least one element present). -/
def pElems : ℕ → ℕ → List Char → List Json → Except JErr (Json × ℕ × List Char)
  | 0, _, _, _ => .error .noPos
  | fuel + 1, pos0, l0, acc =>
    match pVal fuel pos0 l0 with
    | .error e => .error e
    | .ok (v, p1, r1) =>
      match skipWs p1 r1 with
      | (p2, r2) =>
        match r2 with
        | ',' :: r3 => pElems fuel (p2 + 1) r3 (acc ++ [v])
        | ']' :: r3 => .ok (.arr (acc ++ [v]), p2 + 1, r3)
        | [] => .error .noPos
        | _ => .error (.atPos p2)

end

/-- `JSON.parse`: one value, then only whitespace may remain (a trailing
non-whitespace character is the "Unexpected non-whitespace character after
JSON at position N" error, whose position the recovery logic uses). -/
def jsonParse (l : List Char) : Except JErr Json :=
  match pVal (l.length + 1) 0 l with
  | .error e => .error e
  | .ok (v, pos, rest) =>
    match skipWs pos rest with
    | (p2, r2) =>
      match r2 with
      | [] => .ok v
      | _ => .error (.atPos p2)

/-- JavaScript truthiness of a parsed JSON value: `null`, `false`, zero
and the empty string are falsy. (A number literal is zero exactly when its
mantissa has no digit 1–9; float underflow of tiny non-zero literals is
not modelled.) -/
def truthy : Json → Bool
  | .null => false
  | .bool b => b
  | .num lit => (lit.takeWhile (fun c => c ≠ 'e' ∧ c ≠ 'E')).any (fun c => '1' ≤ c ∧ c ≤ '9')
  | .str s => !s.isEmpty
  | .arr _ => true
  | .obj _ => true

/-- The inner `tryParse` of `safeJsonParse`: strict parse; on an error
whose message reports a position, parse the prefix up to that position;
`null` (here `none`) on failure. -/
def tryParse (l : List Char) : Option Json :=
  match jsonParse l with
  | .ok v => some v
  | .error (.atPos n) =>
    match jsonParse (l.take n) with
    | .ok v => some v
    | .error _ => none
  | .error .noPos => none

/-- One recovery attempt as `safeJsonParse` consumes it: `tryParse`
followed by the `if (result)` truthiness gate (a falsy parse falls
through to the next strategy). -/
def attempt (l : List Char) : Option Json :=
  match tryParse l with
  | some v => if truthy v then some v else none
  | none => none

/-- The fence `` ``` ``. -/
def tick3 : List Char := "```".data

/-- The optional `json` tag after an opening fence. -/
def jsonTag : List Char := "json".data

/-- One match of the global regex `/```(?:json)?([\s\S]*?)```/g`: the text
before the match, the lazy capture, and the rest after the closing fence.
The greedy optional `json` tag is tried first and backtracked when no
closing fence follows it. `none` when no match attempt succeeds (in which
case no later start position can succeed either, as the remaining text
holds no closing fence). -/
def fenceStep (l : List Char) : Option (List Char × List Char × List Char) :=
  match findSub tick3 l with
  | none => none
  | some p =>
    let before := l.take p
    let r := l.drop (p + 3)
    match (if jsonTag.isPrefixOf r then
             match findSub tick3 (r.drop 4) with
             | some q => some ((r.drop 4).take q, (r.drop 4).drop (q + 3))
             | none => none
           else none : Option (List Char × List Char)) with
    | some (cap, rest) => some (before, cap, rest)
    | none =>
      match findSub tick3 r with
      | some q => some (before, r.take q, r.drop (q + 3))
      | none => none

/-- Global replacement loop for the fence regex, fuelled (each successful
match consumes at least six characters, so the input length is ample
fuel). -/
def fenceReplaceGo : ℕ → List Char → List Char
  | 0, l => l
  | fuel + 1, l =>
    match fenceStep l with
    | none => l
    | some (b, cap, rest) => b ++ cap ++ fenceReplaceGo fuel rest

/-- `trimmed.replace(/```(?:json)?([\s\S]*?)```/g, '$1')`. -/
def fenceReplace (l : List Char) : List Char :=
  fenceReplaceGo l.length l

/-- Strategy (c)/(d) of `safeJsonParse`: slice from the first `op` to the
last `cl` (when both exist and the last closer is strictly after the first
opener) and retry. -/
def braceAttempt (t : List Char) (op cl : Char) : Option Json :=
  match firstIdx op t, lastIdx cl t with
  | some fb, some lb => if fb < lb then attempt (subStr t fb (lb + 1)) else none
  | _, _ => none

/-- Scan of the regex `/\{[\s\S]*\}|\[[\s\S]*\]/`: the first position
holding `{` with a `}` strictly after it (or `[` with a later `]`), the
greedy body extending to the last such closer in the whole string. -/
def regexSpanGo (l : List Char) : ℕ → List Char → Option (List Char)
  | _, [] => none
  | pos, c :: rest =>
    if c = '{' then
      match lastIdx '}' l with
      | some j => if pos < j then some (subStr l pos (j + 1)) else regexSpanGo l (pos + 1) rest
      | none => regexSpanGo l (pos + 1) rest
    else if c = '[' then
      match lastIdx ']' l with
      | some j => if pos < j then some (subStr l pos (j + 1)) else regexSpanGo l (pos + 1) rest
      | none => regexSpanGo l (pos + 1) rest
    else regexSpanGo l (pos + 1) rest

/-- `trimmed.match(/\{[\s\S]*\}|\[[\s\S]*\]/)`. -/
def regexSpan (l : List Char) : Option (List Char) :=
  regexSpanGo l 0 l

/-- `safeJsonParse` (`src/services/geminiService.ts` lines 18–69):
empty trimmed input returns `{}`; otherwise the recovery strategies run in
order — strict parse (with error-position prefix retry), Markdown fence
stripping, first-`{`..last-`}` slice, first-`[`..last-`]` slice, regex
span — each gated by truthiness; when all fail, the function throws
(`.error ()`). -/
def safeJsonParse (s : List Char) : Except Unit Json :=
  let t := trimList s
  if t.isEmpty then .ok (.obj [])
  else
    match attempt t with
    | some v => .ok v
    | none =>
      match (if containsSub tick3 t then attempt (trimList (fenceReplace t)) else none) with
      | some v => .ok v
      | none =>
        match braceAttempt t '{' '}' with
        | some v => .ok v
        | none =>
          match braceAttempt t '[' ']' with
          | some v => .ok v
          | none =>
            match (regexSpan t).bind attempt with
            | some v => .ok v
            | none => .error ()

/-- Finalization of `performCognitiveSearch` (`src/services/geminiService.ts`
lines 291–302): the stream's fragments are concatenated and
`safeJsonParse(fullText || "{}")` is applied (the empty concatenation is
falsy, so it is replaced by `"\x7b\x7d"`). -/
def performCognitiveSearchFinal (fullText : List Char) : Except Unit Json :=
  safeJsonParse (if fullText.isEmpty then ['{', '}'] else fullText)

/-! ## Helper lemmas: prefixes, `findSub`, the scan and the unescaping -/

theorem getLast?_cons_ne {c : Char} {l : List Char} (h : l ≠ []) :
    (c :: l).getLast? = l.getLast? := by
  cases l with
  | nil => simp at h
  | cons d ds => rw [List.getLast?_cons_cons]

theorem prefBool_iff (p l : List Char) : p.isPrefixOf l = true ↔ p <+: l := by
  induction p generalizing l with
  | nil => simp [List.isPrefixOf, List.nil_prefix]
  | cons a as ih =>
    cases l with
    | nil =>
      rw [show (a :: as).isPrefixOf [] = false from rfl]
      simp [List.prefix_nil]
    | cons b bs =>
      show (a == b && as.isPrefixOf bs) = true ↔ _
      rw [Bool.and_eq_true, beq_iff_eq, ih, List.cons_prefix_cons]

theorem prefBool_append {p l : List Char} (t : List Char)
    (h : p.isPrefixOf l = true) : p.isPrefixOf (l ++ t) = true := by
  rw [prefBool_iff] at h ⊢
  exact h.trans (List.prefix_append l t)

theorem prefBool_of_le {p l t : List Char} (hle : p.length ≤ l.length)
    (h : p.isPrefixOf (l ++ t) = true) : p.isPrefixOf l = true := by
  rw [prefBool_iff] at h ⊢
  have htake : p = (l ++ t).take p.length := by
    obtain ⟨u, hu⟩ := h
    rw [← hu, List.take_left]
  rw [List.take_append_of_le_length hle] at htake
  refine ⟨l.drop p.length, ?_⟩
  nth_rewrite 1 [htake]
  exact List.take_append_drop p.length l

theorem findSub_le {pat l : List Char} {q : ℕ} (h : findSub pat l = some q) :
    q + pat.length ≤ l.length := by
  induction l generalizing q with
  | nil =>
    unfold findSub at h
    by_cases hp : pat.isEmpty <;> simp [hp] at h
    subst h
    simpa [List.isEmpty_iff] using hp
  | cons c rest ih =>
    unfold findSub at h
    by_cases hp : pat.isPrefixOf (c :: rest) = true
    · simp [hp] at h
      subst h
      rw [prefBool_iff] at hp
      simpa using hp.length_le
    · simp [hp] at h
      obtain ⟨q', hq', rfl⟩ := h
      have := ih hq'
      simpa [Nat.succ_add] using Nat.succ_le_succ this

theorem findSub_append {pat l : List Char} {q : ℕ} (t : List Char)
    (h : findSub pat l = some q) : findSub pat (l ++ t) = some q := by
  induction l generalizing q with
  | nil =>
    unfold findSub at h
    by_cases hp : pat.isEmpty <;> simp [hp] at h
    subst h
    have : pat = [] := by simpa [List.isEmpty_iff] using hp
    subst this
    cases t with
    | nil => rfl
    | cons c cs =>
      show findSub [] (c :: cs) = some 0
      unfold findSub
      simp [List.isPrefixOf]
  | cons c rest ih =>
    unfold findSub at h
    by_cases hp : pat.isPrefixOf (c :: rest) = true
    · simp [hp] at h
      subst h
      have hp3 : pat.isPrefixOf (c :: (rest ++ t)) = true := by
        have := prefBool_append t hp
        rwa [List.cons_append] at this
      show findSub pat (c :: (rest ++ t)) = some 0
      unfold findSub
      rw [if_pos hp3]
    · simp [hp] at h
      obtain ⟨q', hq', rfl⟩ := h
      have hle : pat.length ≤ (c :: rest).length := by
        have := findSub_le hq'
        simp only [List.length_cons]
        omega
      have hp2 : ¬ pat.isPrefixOf (c :: (rest ++ t)) = true := fun hc => by
        rw [← List.cons_append] at hc
        exact hp (prefBool_of_le hle hc)
      show findSub pat (c :: (rest ++ t)) = some (q' + 1)
      unfold findSub
      rw [if_neg hp2, ih hq']
      rfl

theorem scanStr_append (prev : Char) (l t : List Char) :
    scanStr prev l <+: scanStr prev (l ++ t) := by
  induction l generalizing prev with
  | nil => simp [scanStr]
  | cons c rest ih =>
    by_cases h : c = '"' ∧ prev ≠ '\\'
    · simp [scanStr, h]
    · simpa [scanStr, h] using ih c

theorem replEsc_ne_nil (b r : Char) {l : List Char} (h : l ≠ []) :
    replEsc b r l ≠ [] := by
  match l with
  | [c] => simp [replEsc]
  | c :: d :: rest =>
    by_cases hc : c = '\\' ∧ d = b <;> simp [replEsc, hc]

theorem replEsc_last (b r : Char) {l : List Char} (h : l ≠ []) :
    (replEsc b r l).getLast? = some r ∨ (replEsc b r l).getLast? = l.getLast? := by
  induction l using replEsc.induct b r with
  | case1 => simp at h
  | case2 c => right; simp [replEsc]
  | case3 c d rest hc ih =>
    rw [replEsc, if_pos hc]
    cases rest with
    | nil => left; simp [replEsc]
    | cons e es =>
      have hne : e :: es ≠ [] := by simp
      rcases ih hne with h1 | h1
      · left
        rw [getLast?_cons_ne (replEsc_ne_nil b r hne)]
        exact h1
      · rw [getLast?_cons_ne (replEsc_ne_nil b r hne), h1]
        right
        rw [List.getLast?_cons_cons, List.getLast?_cons_cons]
  | case4 c d rest hc ih =>
    rw [replEsc, if_neg hc]
    have hne : d :: rest ≠ [] := by simp
    rcases ih hne with h1 | h1
    · left
      rw [getLast?_cons_ne (replEsc_ne_nil b r hne)]
      exact h1
    · rw [getLast?_cons_ne (replEsc_ne_nil b r hne), h1]
      right
      rw [List.getLast?_cons_cons]

theorem replEsc_append (b r : Char) (hb : b ≠ '\\') {l : List Char} (t : List Char)
    (h : l.getLast? ≠ some '\\') :
    replEsc b r l <+: replEsc b r (l ++ t) := by
  induction l using replEsc.induct b r with
  | case1 => simp [replEsc]
  | case2 c =>
    have hc : c ≠ '\\' := by simpa using h
    cases t with
    | nil => simp
    | cons d ds =>
      show replEsc b r [c] <+: replEsc b r (c :: d :: ds)
      have : ¬ (c = '\\' ∧ d = b) := fun hcd => hc hcd.1
      rw [replEsc, replEsc, if_neg this]
      exact (List.cons_prefix_cons).mpr ⟨rfl, List.nil_prefix⟩
  | case3 c d rest hc ih =>
    have hlast : rest.getLast? ≠ some '\\' := by
      cases rest with
      | nil => simp
      | cons e es =>
        rw [List.getLast?_cons_cons, List.getLast?_cons_cons] at h
        exact h
    show replEsc b r (c :: d :: rest) <+: replEsc b r (c :: d :: (rest ++ t))
    rw [replEsc, replEsc, if_pos hc, if_pos hc]
    exact (List.cons_prefix_cons).mpr ⟨rfl, ih hlast⟩
  | case4 c d rest hc ih =>
    have hlast : (d :: rest).getLast? ≠ some '\\' := by
      rw [List.getLast?_cons_cons] at h
      exact h
    show replEsc b r (c :: d :: rest) <+: replEsc b r (c :: d :: (rest ++ t))
    rw [replEsc, replEsc, if_neg hc, if_neg hc]
    exact (List.cons_prefix_cons).mpr ⟨rfl, by simpa using ih hlast⟩

theorem unescape_append {l : List Char} (t : List Char)
    (h : l.getLast? ≠ some '\\') : unescape l <+: unescape (l ++ t) := by
  unfold unescape
  have h1 : replEsc 'n' '\n' l <+: replEsc 'n' '\n' (l ++ t) :=
    replEsc_append 'n' '\n' (by decide) t h
  obtain ⟨u, hu⟩ := h1
  rw [← hu]
  rcases eq_or_ne l [] with rfl | hne
  · simp [replEsc]
  · have h2 : (replEsc 'n' '\n' l).getLast? ≠ some '\\' := by
      rcases replEsc_last 'n' '\n' hne with hl | hl <;> rw [hl]
      · simp
      · exact h
    exact replEsc_append '"' '"' (by decide) u h2

theorem scanStr_take (prev : Char) (l : List Char) :
    scanStr prev l
      = l.take (List.findIdx (fun pr : Char × Char => pr.2 == '"' && pr.1 != '\\')
          (List.zip (prev :: l) l)) := by
  induction l generalizing prev with
  | nil => simp [scanStr]
  | cons c rest ih =>
    have hz : List.zip (prev :: c :: rest) (c :: rest)
        = (prev, c) :: List.zip (c :: rest) rest := rfl
    rw [scanStr, hz, List.findIdx_cons]
    by_cases h : c = '"' ∧ prev ≠ '\\'
    · have hp : ((c : Char) == '"' && prev != '\\') = true := by
        simp [h.1, bne_iff_ne, h.2]
      rw [if_pos h]
      simp [hp]
    · have hp : ((c : Char) == '"' && prev != '\\') = false := by
        rcases not_and_or.mp h with h1 | h1
        · simp [bne_iff_ne, h1]
        · have : prev = '\\' := not_not.mp h1
          simp [this]
      rw [if_neg h]
      simp [hp, ih c]

theorem drop_app (w t : List Char) (n : ℕ) :
    (w ++ t).drop (w.length + n) = t.drop n := by
  induction w with
  | nil => simp
  | cons c cs ih => simpa [Nat.succ_add] using ih

/-- C3. For every buffer in which `"<field>": "` occurs, the per-field
partial extraction copies characters from just after the opening quote up
to (excluding) the first double-quote not immediately preceded by a
backslash — or to the end of the buffer — and then unescapes `\n` and
`\"`; in particular, on `"answer": "She said \"hi\" to"` the extracted
value of `answer` is exactly `She said "hi" to`. -/
theorem c3_partial_extraction :
    (∀ json field p, findSub (fieldMarker field) json = some p →
      extractFieldFromPartialJson json field
        = unescape (scanSpec (json.drop (p + (fieldMarker field).length))))
    ∧ extractFieldFromPartialJson
        "\"answer\": \"She said \\\"hi\\\" to\"".data "answer".data
      = "She said \"hi\" to".data := by
  constructor
  · intro json field p hp
    unfold extractFieldFromPartialJson extractRaw scanSpec stopIdx
    rw [hp]
    show unescape (scanStr '"' (json.drop (p + (fieldMarker field).length))) = _
    rw [scanStr_take]
  · rfl

/-- Witness for C3: the first conjunct applied at the concrete buffer of
the second. -/
theorem c3_partial_extraction_witness :
    extractFieldFromPartialJson
        "\"answer\": \"She said \\\"hi\\\" to\"".data "answer".data
      = unescape (scanSpec (("\"answer\": \"She said \\\"hi\\\" to\"".data).drop
          (0 + (fieldMarker "answer".data).length))) :=
  c3_partial_extraction.1 _ _ 0 rfl

/-- C2 counterexample: appending the single fragment `n` to a buffer whose
`answer` field has consumed a lone backslash turns the exposed value from
`\` into a newline — the old value is not a prefix of the new one, so the
exposed field value is not monotonically extended fragment by fragment. -/
theorem c2_counterexample :
    extractFieldFromPartialJson "\"answer\": \"\\".data "answer".data = ['\\']
    ∧ extractFieldFromPartialJson ("\"answer\": \"\\".data ++ ['n']) "answer".data = ['\n']
    ∧ ¬ (['\\'] <+: ['\n']) := by
  refine ⟨rfl, rfl, fun hp => ?_⟩
  exact absurd ((prefBool_iff _ _).mpr hp) (by decide)

/-- C2 as amended: over an append-only buffer the *raw* scanned content of
a field is always extended (prefix-monotone); the exposed, unescaped value
extends the previous one whenever the previous raw content does not end in
a backslash (i.e. the fragment boundary does not split an escape
sequence). The final authoritative parse may still overwrite every
field. -/
theorem c2_amended (json t field : List Char) :
    extractRaw json field <+: extractRaw (json ++ t) field
    ∧ ((extractRaw json field).getLast? ≠ some '\\' →
        extractFieldFromPartialJson json field
          <+: extractFieldFromPartialJson (json ++ t) field) := by
  have hraw : extractRaw json field <+: extractRaw (json ++ t) field := by
    unfold extractRaw
    cases hfs : findSub (fieldMarker field) json with
    | none =>
      cases findSub (fieldMarker field) (json ++ t) <;> exact List.nil_prefix
    | some p =>
      rw [findSub_append t hfs]
      have hle := findSub_le hfs
      have hd : (json ++ t).drop (p + (fieldMarker field).length)
          = json.drop (p + (fieldMarker field).length) ++ t := by
        rw [List.drop_append_of_le_length hle]
      show scanStr '"' (json.drop (p + (fieldMarker field).length))
        <+: scanStr '"' ((json ++ t).drop (p + (fieldMarker field).length))
      rw [hd]
      exact scanStr_append '"' _ t
  refine ⟨hraw, fun hlast => ?_⟩
  obtain ⟨u, hu⟩ := hraw
  unfold extractFieldFromPartialJson
  rw [← hu]
  exact unescape_append u hlast

/-- Witness for C2 (amended): building up `"answer": "Hello"`, the value
exposed after `He` is extended by the arrival of `llo"`. -/
theorem c2_amended_witness :
    (extractRaw "\"answer\": \"He".data "answer".data).getLast? ≠ some '\\'
    ∧ extractFieldFromPartialJson "\"answer\": \"He".data "answer".data
        <+: extractFieldFromPartialJson ("\"answer\": \"He".data ++ "llo\"".data) "answer".data :=
  ⟨by decide, (c2_amended "\"answer\": \"He".data "llo\"".data "answer".data).2 (by decide)⟩

/-- C5 counterexample: a file named `report.PDF` (uppercase extension)
with an empty MIME type routes to the plain-text fallback, not to the PDF
path — `endsWith('.pdf')` is case-sensitive. -/
theorem c5_counterexample :
    parseDocumentPath "report.PDF".data "".data = .plainText
    ∧ DocPath.plainText ≠ DocPath.pdf :=
  ⟨rfl, by decide⟩

/-- C5 as amended: dispatch is by the first matching rule, in order — PDF
MIME type or a (case-sensitively) `.pdf`-suffixed name → PDF; else MIME
beginning `image/` → image; else `.docx` suffix → office extractor; else
plain text. `report.pdf` (lowercase) with empty MIME routes to PDF,
`report.PDF` (uppercase) to plain text; `image/png` with no extension
routes to image; the image rule loses to the PDF rule and beats the
`.docx` rule. -/
theorem c5_amended :
    (∀ name mime : List Char, mime = "application/pdf".data →
      parseDocumentPath name mime = .pdf)
    ∧ (∀ name mime : List Char, ".pdf".data.isSuffixOf name = true →
      parseDocumentPath name mime = .pdf)
    ∧ (∀ name mime : List Char, mime ≠ "application/pdf".data →
      ".pdf".data.isSuffixOf name = false → "image/".data.isPrefixOf mime = true →
      parseDocumentPath name mime = .image)
    ∧ (∀ name mime : List Char, mime ≠ "application/pdf".data →
      ".pdf".data.isSuffixOf name = false → "image/".data.isPrefixOf mime = false →
      ".docx".data.isSuffixOf name = true → parseDocumentPath name mime = .docx)
    ∧ (∀ name mime : List Char, mime ≠ "application/pdf".data →
      ".pdf".data.isSuffixOf name = false → "image/".data.isPrefixOf mime = false →
      ".docx".data.isSuffixOf name = false → parseDocumentPath name mime = .plainText)
    ∧ parseDocumentPath "report.pdf".data "".data = .pdf
    ∧ parseDocumentPath "photo".data "image/png".data = .image
    ∧ parseDocumentPath "a.pdf".data "image/png".data = .pdf
    ∧ parseDocumentPath "a.docx".data "image/jpeg".data = .image
    ∧ parseDocumentPath "report.PDF".data "".data = .plainText := by
  refine ⟨?_, ?_, ?_, ?_, ?_, rfl, rfl, rfl, rfl, rfl⟩
  · intro name mime h
    unfold parseDocumentPath
    rw [if_pos (Or.inl h)]
  · intro name mime h
    unfold parseDocumentPath
    rw [if_pos (Or.inr h)]
  · intro name mime h1 h2 h3
    unfold parseDocumentPath
    rw [if_neg (by simp [h1, h2]), if_pos h3]
  · intro name mime h1 h2 h3 h4
    unfold parseDocumentPath
    rw [if_neg (by simp [h1, h2]), if_neg (by simp [h3]), if_pos h4]
  · intro name mime h1 h2 h3 h4
    unfold parseDocumentPath
    rw [if_neg (by simp [h1, h2]), if_neg (by simp [h3]), if_neg (by simp [h4])]

/-- Witness for C5 (amended): the PDF-MIME rule at a concrete file. -/
theorem c5_amended_witness :
    parseDocumentPath "doc".data "application/pdf".data = DocPath.pdf :=
  c5_amended.1 "doc".data "application/pdf".data rfl

/-- C4. For a PDF with at least one page, the recognition fallback runs
iff the trimmed length of the concatenated embedded text layer is strictly
below 50 per page; a sufficient embedded layer is returned unchanged with
recognition never invoked; for a 3-page PDF the fallback triggers below
150 trimmed characters and stays off from 151 up. -/
theorem c4_pdf_threshold (pages : List (List (List Char)))
    (oracle : ℕ → Except Unit (Option (List Char)))
    (hpos : 0 < pages.length) :
    ((extractTextFromPdf pages oracle).2 = true
      ↔ (trimList (embeddedText pages)).length < 50 * pages.length)
    ∧ (50 * pages.length ≤ (trimList (embeddedText pages)).length →
        extractTextFromPdf pages oracle = (embeddedText pages, false))
    ∧ (pages.length = 3 → (trimList (embeddedText pages)).length < 150 →
        (extractTextFromPdf pages oracle).2 = true)
    ∧ (pages.length = 3 → 151 ≤ (trimList (embeddedText pages)).length →
        (extractTextFromPdf pages oracle).2 = false) := by
  unfold extractTextFromPdf
  by_cases h : (trimList (embeddedText pages)).length < 50 * pages.length
  · rw [if_pos ⟨h, hpos⟩]
    refine ⟨by simp [h], fun hge => absurd h (by omega), fun _ _ => rfl, fun h3 hge => ?_⟩
    rw [h3] at h
    omega
  · rw [if_neg (fun hc => h hc.1)]
    refine ⟨by simp [h], fun _ => rfl, fun h3 hlt => ?_, fun _ _ => rfl⟩
    rw [h3] at h
    omega

/-- Witness for C4: a concrete 3-page PDF with a 5-character trimmed
embedded layer triggers the fallback. -/
theorem c4_pdf_threshold_witness :
    (extractTextFromPdf [[['a']], [['b']], [['c']]] (fun _ => .ok none)).2 = true :=
  (c4_pdf_threshold [[['a']], [['b']], [['c']]] (fun _ => .ok none) (by decide)).2.2.1
    rfl (by decide)

/-- C9 counterexample: a one-page scanned PDF whose every recognition call
throws still completes extraction successfully — `performVisionOcr`
swallows the failure and returns the empty string, so the produced text is
a bare page marker and the document reaches `ready`, not `error`. -/
theorem c9_counterexample :
    (extractTextFromPdf [[]] (fun _ => .error ())).1 = "--- PAGE 1 ---\n\n\n".data
    ∧ (extractTextFromPdf [[]] (fun _ => .error ())).2 = true
    ∧ statusAfterExtraction (.ok (extractTextFromPdf [[]] (fun _ => .error ())).1)
        = .ready
    ∧ UploadStatus.ready ≠ UploadStatus.error :=
  ⟨rfl, rfl, rfl, by decide⟩

/-- C9 as amended: a Recognition Client failure does *not* propagate —
`performVisionOcr` catches every error and returns `""`, so a PDF-fallback
extraction whose every page recognition fails still returns successfully,
producing the page markers with empty page text, and the document ends in
`ready` status. -/
theorem c9_amended (pages : List (List (List Char)))
    (oracle : ℕ → Except Unit (Option (List Char)))
    (hfail : ∀ i, oracle i = .error ())
    (hlow : (trimList (embeddedText pages)).length < 50 * pages.length)
    (hpos : 0 < pages.length) :
    extractTextFromPdf pages oracle
      = (((List.range pages.length).map (fun j => pageMark (j + 1) [])).flatten, true)
    ∧ statusAfterExtraction (.ok (extractTextFromPdf pages oracle).1) = .ready := by
  unfold extractTextFromPdf
  rw [if_pos ⟨hlow, hpos⟩]
  exact ⟨by simp [hfail, performVisionOcr], rfl⟩

/-- Witness for C9 (amended): the one-page scan with an always-throwing
recognition oracle. -/
theorem c9_amended_witness :
    extractTextFromPdf [[]] (fun _ => .error ())
      = (((List.range 1).map (fun j => pageMark (j + 1) [])).flatten, true) :=
  (c9_amended [[]] (fun _ => .error ()) (fun _ => rfl) (by decide) (by decide)).1

theorem getD_lt {α : Type} (l : List α) (k : ℕ) (hk : k < l.length) (d : α) :
    l.getD k d = l.get ⟨k, hk⟩ := by
  induction l generalizing k with
  | nil => simp at hk
  | cons a as ih =>
    cases k with
    | zero => rfl
    | succ j => exact ih j (Nat.lt_of_succ_lt_succ hk)

theorem getD_map_lt {α β : Type} (g : α → β) (l : List α) (k : ℕ)
    (hk : k < l.length) (d : β) :
    (l.map g).getD k d = g (l.get ⟨k, hk⟩) := by
  induction l generalizing k with
  | nil => simp at hk
  | cons a as ih =>
    cases k with
    | zero => rfl
    | succ j => exact ih j (Nat.lt_of_succ_lt_succ hk)

theorem getD_app {α : Type} (l1 l2 : List α) (k : ℕ) (d : α) :
    (l1 ++ l2).getD (l1.length + k) d = l2.getD k d := by
  induction l1 with
  | nil => simp
  | cons a as ih => simpa [Nat.succ_add] using ih

theorem getD_app_left {α : Type} (l1 l2 : List α) (k : ℕ) (hk : k < l1.length) (d : α) :
    (l1 ++ l2).getD k d = l1.getD k d := by
  induction l1 generalizing k with
  | nil => simp at hk
  | cons a as ih =>
    cases k with
    | zero => rfl
    | succ j => exact ih j (Nat.lt_of_succ_lt_succ hk)

theorem applyOutcome_length (st : List Entry) (f : BatchFile) :
    (applyOutcome st f).length = st.length := by
  unfold applyOutcome
  cases f.outcome <;> simp

theorem applyOutcome_getD (st : List Entry) (f : BatchFile) (k : ℕ)
    (hk : k < st.length) (d : Entry) :
    (applyOutcome st f).getD k d = stepEntry (st.getD k d) f := by
  unfold applyOutcome stepEntry
  cases f.outcome with
  | ok text => rw [getD_map_lt _ st k hk d, getD_lt st k hk d]
  | error e => rw [getD_map_lt _ st k hk d, getD_lt st k hk d]

theorem foldl_applyOutcome_length (batch : List BatchFile) (st : List Entry) :
    (batch.foldl applyOutcome st).length = st.length := by
  induction batch generalizing st with
  | nil => rfl
  | cons f fs ih =>
    show (fs.foldl applyOutcome (applyOutcome st f)).length = _
    rw [ih, applyOutcome_length]

theorem foldl_applyOutcome_getD (batch : List BatchFile) (st : List Entry) (k : ℕ)
    (hk : k < st.length) (d : Entry) :
    (batch.foldl applyOutcome st).getD k d = batch.foldl stepEntry (st.getD k d) := by
  induction batch generalizing st with
  | nil => rfl
  | cons f fs ih =>
    show (fs.foldl applyOutcome (applyOutcome st f)).getD k d = _
    rw [ih (applyOutcome st f) (by rw [applyOutcome_length]; exact hk),
      applyOutcome_getD st f k hk d]
    rfl

theorem stepEntry_ok (e : Entry) (f : BatchFile) (t : List Char)
    (h : f.outcome = .ok t) :
    stepEntry e f
      = if e.name = f.name then { e with content := t, status := .ready } else e := by
  unfold stepEntry
  rw [h]

theorem stepEntry_err (e : Entry) (f : BatchFile) (u : Unit)
    (h : f.outcome = .error u) :
    stepEntry e f = if e.name = f.name then { e with status := .error } else e := by
  unfold stepEntry
  rw [h]

theorem stepEntry_name (e : Entry) (f : BatchFile) : (stepEntry e f).name = e.name := by
  cases hout : f.outcome with
  | ok t => rw [stepEntry_ok e f t hout]; split_ifs <;> rfl
  | error u => rw [stepEntry_err e f u hout]; split_ifs <;> rfl

theorem stepEntry_skip {e : Entry} {f : BatchFile} (h : ¬ e.name = f.name) :
    stepEntry e f = e := by
  cases hout : f.outcome with
  | ok t => rw [stepEntry_ok e f t hout, if_neg h]
  | error u => rw [stepEntry_err e f u hout, if_neg h]

theorem foldl_stepEntry_skip {fs : List BatchFile} {e : Entry}
    (h : ∀ f ∈ fs, f.name ≠ e.name) : fs.foldl stepEntry e = e := by
  induction fs with
  | nil => rfl
  | cons f fs ih =>
    show fs.foldl stepEntry (stepEntry e f) = e
    rw [stepEntry_skip (fun he => h f (by simp) he.symm)]
    exact ih (fun g hg => h g (by simp [hg]))

theorem foldl_stepEntry_hit (batch : List BatchFile) (k : ℕ) (hk : k < batch.length)
    (e : Entry) (hname : e.name = (batch.get ⟨k, hk⟩).name)
    (hnodup : (batch.map BatchFile.name).Nodup) :
    batch.foldl stepEntry e = stepEntry e (batch.get ⟨k, hk⟩) := by
  induction batch generalizing k e with
  | nil => simp at hk
  | cons f fs ih =>
    rw [List.map_cons, List.nodup_cons] at hnodup
    cases k with
    | zero =>
      show fs.foldl stepEntry (stepEntry e f) = stepEntry e f
      apply foldl_stepEntry_skip
      intro g hg hgn
      apply hnodup.1
      rw [stepEntry_name] at hgn
      have hname' : e.name = f.name := hname
      rw [← hname', ← hgn]
      exact List.mem_map.mpr ⟨g, hg, rfl⟩
    | succ j =>
      have hj : j < fs.length := Nat.lt_of_succ_lt_succ hk
      have hname' : e.name = (fs.get ⟨j, hj⟩).name := hname
      show fs.foldl stepEntry (stepEntry e f) = stepEntry e (fs.get ⟨j, hj⟩)
      have hmem : e.name ∈ fs.map BatchFile.name := by
        rw [hname']
        exact List.mem_map.mpr ⟨fs.get ⟨j, hj⟩, List.get_mem fs j hj, rfl⟩
      have hne : ¬ e.name = f.name := fun hc => hnodup.1 (hc ▸ hmem)
      rw [stepEntry_skip hne]
      exact ih j hj e hname' hnodup.2

/-- C8. Per-batch extraction outcomes are isolated: with pairwise-distinct
file names in the batch (names are the `UploadedDocument` identity), the
batch entry for file `k` ends `ready` with its text attached when its
extraction succeeded, and `error` with the placeholder content discarded
when it threw — regardless of the other files' outcomes; in particular,
of three files whose second throws, the first and third end `ready` and
only the second ends `error`. -/
theorem c8_error_isolation :
    (∀ (prev : List Entry) (batch : List BatchFile),
      (batch.map BatchFile.name).Nodup →
      ∀ k (hk : k < batch.length),
        (handleFileChange prev batch).getD (prev.length + k) ⟨[], [], [], .processing⟩
          = (match (batch.get ⟨k, hk⟩).outcome with
             | .ok text =>
               ⟨(batch.get ⟨k, hk⟩).name, (batch.get ⟨k, hk⟩).mime, text, .ready⟩
             | .error _ =>
               ⟨(batch.get ⟨k, hk⟩).name, (batch.get ⟨k, hk⟩).mime, [], .error⟩))
    ∧ handleFileChange []
        [⟨"a".data, "text/plain".data, .ok "ta".data⟩,
         ⟨"b".data, "text/plain".data, .error ()⟩,
         ⟨"c".data, "text/plain".data, .ok "tc".data⟩]
      = [⟨"a".data, "text/plain".data, "ta".data, .ready⟩,
         ⟨"b".data, "text/plain".data, [], .error⟩,
         ⟨"c".data, "text/plain".data, "tc".data, .ready⟩] := by
  constructor
  · intro prev batch hnodup k hk
    unfold handleFileChange
    have hlen : prev.length + k < (prev ++ placeholders batch).length := by
      simp [placeholders]
      omega
    rw [foldl_applyOutcome_getD batch _ _ hlen, getD_app prev (placeholders batch) k]
    have hplh : (placeholders batch).getD k ⟨[], [], [], .processing⟩
        = ⟨(batch.get ⟨k, hk⟩).name, (batch.get ⟨k, hk⟩).mime, [], .processing⟩ := by
      unfold placeholders
      rw [getD_map_lt _ batch k hk]
    rw [hplh,
      foldl_stepEntry_hit batch k hk ⟨(batch.get ⟨k, hk⟩).name, (batch.get ⟨k, hk⟩).mime, [], .processing⟩ rfl hnodup]
    cases hout : (batch.get ⟨k, hk⟩).outcome with
    | ok t => rw [stepEntry_ok _ _ t hout, if_pos rfl]
    | error u => rw [stepEntry_err _ _ u hout, if_pos rfl]
  · rfl

/-- Witness for C8: the general statement applied to the three-file batch
whose second file throws, at index 0 (the first file ends `ready`). -/
theorem c8_error_isolation_witness :
    (handleFileChange []
        [⟨"a".data, "text/plain".data, .ok "ta".data⟩,
         ⟨"b".data, "text/plain".data, .error ()⟩,
         ⟨"c".data, "text/plain".data, .ok "tc".data⟩]).getD 0 ⟨[], [], [], .processing⟩
      = ⟨"a".data, "text/plain".data, "ta".data, .ready⟩ :=
  c8_error_isolation.1 []
    [⟨"a".data, "text/plain".data, .ok "ta".data⟩,
     ⟨"b".data, "text/plain".data, .error ()⟩,
     ⟨"c".data, "text/plain".data, .ok "tc".data⟩] (by decide) 0 (by decide)

theorem getMap {α β : Type} (g : α → β) (l : List α) (k : ℕ)
    (hk : k < l.length) (hk2 : k < (l.map g).length) :
    (l.map g).get ⟨k, hk2⟩ = g (l.get ⟨k, hk⟩) := by
  induction l generalizing k with
  | nil => simp at hk
  | cons a as ih =>
    cases k with
    | zero => rfl
    | succ j => exact ih j (Nat.lt_of_succ_lt_succ hk) (by simpa using hk2)

theorem scanMinMax_eq (img : List Pix) :
    scanMinMax img = ((img.map avgQ).foldl min 255, (img.map avgQ).foldl max 0) := by
  unfold scanMinMax
  suffices h : ∀ (m M : ℚ),
      img.foldl
        (fun mM p =>
          (if avgQ p < mM.1 then avgQ p else mM.1,
           if avgQ p > mM.2 then avgQ p else mM.2)) (m, M)
        = ((img.map avgQ).foldl min m, (img.map avgQ).foldl max M) from h 255 0
  induction img with
  | nil => intro m M; rfl
  | cons p ps ih =>
    intro m M
    simp only [List.foldl_cons, List.map_cons]
    rw [ih]
    have hmin : (if avgQ p < m then avgQ p else m) = min m (avgQ p) := by
      rcases lt_or_le (avgQ p) m with h | h
      · rw [if_pos h, min_eq_right h.le]
      · rw [if_neg (not_lt.mpr h), min_eq_left h]
    have hmax : (if avgQ p > M then avgQ p else M) = max M (avgQ p) := by
      rcases lt_or_le M (avgQ p) with h | h
      · rw [if_pos h, max_eq_right h.le]
      · rw [if_neg (not_lt.mpr h), max_eq_left h]
    rw [hmin, hmax]

/-- C6 counterexample: on a three-pixel image the code's normalization
(min/max tracked over the channel average `(R+G+B)/3`) and the claim's
description (min/max tracked over the weighted luminance) write different
gray levels to the third pixel (178 versus 156). -/
theorem c6_counterexample :
    normalizePass [⟨0, 100, 0, 255⟩, ⟨200, 200, 200, 255⟩, ⟨150, 150, 150, 255⟩]
      = [⟨0, 0, 0, 255⟩, ⟨255, 255, 255, 255⟩, ⟨178, 178, 178, 255⟩]
    ∧ normalizeSpecClaim [⟨0, 100, 0, 255⟩, ⟨200, 200, 200, 255⟩, ⟨150, 150, 150, 255⟩]
      = [⟨0, 0, 0, 255⟩, ⟨255, 255, 255, 255⟩, ⟨156, 156, 156, 255⟩]
    ∧ normalizePass [⟨0, 100, 0, 255⟩, ⟨200, 200, 200, 255⟩, ⟨150, 150, 150, 255⟩]
      ≠ normalizeSpecClaim [⟨0, 100, 0, 255⟩, ⟨200, 200, 200, 255⟩, ⟨150, 150, 150, 255⟩] := by
  have h1 : normalizePass [⟨0, 100, 0, 255⟩, ⟨200, 200, 200, 255⟩, ⟨150, 150, 150, 255⟩]
      = [⟨0, 0, 0, 255⟩, ⟨255, 255, 255, 255⟩, ⟨178, 178, 178, 255⟩] := by
    have hs : scanMinMax [⟨0, 100, 0, 255⟩, ⟨200, 200, 200, 255⟩, ⟨150, 150, 150, 255⟩]
        = (100/3, 200) := by
      unfold scanMinMax avgQ
      simp only [List.foldl_cons, List.foldl_nil]
      norm_num
    unfold normalizePass
    rw [hs]
    simp only [List.map_cons, List.map_nil]
    norm_num [normalizeGray, lumQ, q2byte, rhe, clampInt]
    decide
  have h2 : normalizeSpecClaim [⟨0, 100, 0, 255⟩, ⟨200, 200, 200, 255⟩, ⟨150, 150, 150, 255⟩]
      = [⟨0, 0, 0, 255⟩, ⟨255, 255, 255, 255⟩, ⟨156, 156, 156, 255⟩] := by
    have hmn : (([⟨0, 100, 0, 255⟩, ⟨200, 200, 200, 255⟩,
          ⟨150, 150, 150, 255⟩] : List Pix).map lumQ).foldl min 255 = 1788/25 := by
      unfold lumQ
      simp only [List.map_cons, List.map_nil, List.foldl_cons, List.foldl_nil]
      rw [min_def, min_def, min_def]
      norm_num
    have hmx : (([⟨0, 100, 0, 255⟩, ⟨200, 200, 200, 255⟩,
          ⟨150, 150, 150, 255⟩] : List Pix).map lumQ).foldl max 0 = 200 := by
      unfold lumQ
      simp only [List.map_cons, List.map_nil, List.foldl_cons, List.foldl_nil]
      rw [max_def, max_def, max_def]
      norm_num
    unfold normalizeSpecClaim
    rw [hmn, hmx]
    simp only [List.map_cons, List.map_nil]
    norm_num [normalizeGray, lumQ, q2byte, rhe, clampInt]
    decide
  refine ⟨h1, h2, ?_⟩
  rw [h1, h2]
  decide

/-- C6 as amended: the normalization pass scans the minimum and maximum of
the per-pixel channel *average* (not the weighted luminance), then
rescales each pixel's weighted luminance by `(lum - min) / (max - min)`
into 0–255 (denominator 1 when `max = min`), forces values above 185 to
255 and below 70 to 0, and writes the gray level to all three color
channels, leaving alpha unchanged: the loop-based pass equals the
declarative description, preserves length, preserves alpha and writes
equal color channels. -/
theorem c6_amended (img : List Pix) :
    normalizePass img = normalizeSpecAmended img
    ∧ (normalizePass img).length = img.length
    ∧ (∀ k (hk : k < img.length) (hk2 : k < (normalizePass img).length),
        ((normalizePass img).get ⟨k, hk2⟩).a = (img.get ⟨k, hk⟩).a
        ∧ ((normalizePass img).get ⟨k, hk2⟩).r = ((normalizePass img).get ⟨k, hk2⟩).g
        ∧ ((normalizePass img).get ⟨k, hk2⟩).g = ((normalizePass img).get ⟨k, hk2⟩).b) := by
  refine ⟨?_, ?_, ?_⟩
  · unfold normalizePass normalizeSpecAmended
    rw [scanMinMax_eq]
  · unfold normalizePass
    simp
  · intro k hk hk2
    unfold normalizePass at hk2 ⊢
    rw [getMap _ img k hk]
    exact ⟨rfl, rfl, rfl⟩

/-- Witness for C6 (amended): the per-pixel facts at a concrete one-pixel
image. -/
theorem c6_amended_witness :
    ((normalizePass [⟨0, 100, 0, 255⟩]).get ⟨0, by decide⟩).a
      = (([⟨0, 100, 0, 255⟩] : List Pix).get ⟨0, by decide⟩).a :=
  ((c6_amended [⟨0, 100, 0, 255⟩]).2.2 0 (by decide) (by decide)).1

theorem gridLen {α : Type} (n wd : ℕ) (f : ℕ → ℕ → α) :
    (((List.range n).map (fun yy => (List.range wd).map (fun xx => f xx yy))).flatten).length
      = n * wd := by
  induction n with
  | zero => simp
  | succ m ih =>
    rw [List.range_succ, List.map_append, List.flatten_append, List.length_append, ih]
    simp [Nat.succ_mul]

theorem grid_getD {α : Type} (n wd : ℕ) (f : ℕ → ℕ → α) (x y : ℕ)
    (hx : x < wd) (hy : y < n) (d : α) :
    (((List.range n).map (fun yy => (List.range wd).map (fun xx => f xx yy))).flatten).getD
      (y * wd + x) d = f x y := by
  induction n with
  | zero => exact absurd hy (Nat.not_lt_zero y)
  | succ m ih =>
    rw [List.range_succ, List.map_append, List.flatten_append]
    rcases Nat.lt_succ_iff_lt_or_eq.mp hy with hy' | rfl
    · rw [getD_app_left _ _ _ (by
        rw [gridLen]
        calc y * wd + x < y * wd + wd := Nat.add_lt_add_left hx _
          _ = (y + 1) * wd := (Nat.succ_mul y wd).symm
          _ ≤ m * wd := Nat.mul_le_mul_right wd hy') d]
      exact ih hy'
    · have hgd := getD_app
        (((List.range y).map (fun yy => (List.range wd).map (fun xx => f xx yy))).flatten)
        ((List.map (fun yy => (List.range wd).map (fun xx => f xx yy)) [y]).flatten) x d
      rw [gridLen] at hgd
      rw [hgd]
      have hflat : ((List.map (fun yy => (List.range wd).map (fun xx => f xx yy)) [y]).flatten)
          = (List.range wd).map (fun xx => f xx y) := by simp
      rw [hflat, getD_map_lt _ _ x (by simpa using hx) d]
      congr 1
      simp

theorem convSum_sharpen (img : Image) (ch : Pix → ℕ) (x y : ℕ) :
    convSum img sharpenKernel 3 1 ch x y
      = 5 * nbCh img ch x y - nbCh img ch x ((y:ℤ) - 1) - nbCh img ch x ((y:ℤ) + 1)
        - nbCh img ch ((x:ℤ) - 1) y - nbCh img ch ((x:ℤ) + 1) y := by
  unfold convSum nbCh
  rw [show List.range 3 = [0, 1, 2] from rfl]
  simp only [List.map_cons, List.map_nil, List.sum_cons, List.sum_nil]
  rw [show sharpenKernel.getD (0 * 3 + 0) 0 = 0 from rfl,
    show sharpenKernel.getD (0 * 3 + 1) 0 = -1 from rfl,
    show sharpenKernel.getD (0 * 3 + 2) 0 = 0 from rfl,
    show sharpenKernel.getD (1 * 3 + 0) 0 = -1 from rfl,
    show sharpenKernel.getD (1 * 3 + 1) 0 = 5 from rfl,
    show sharpenKernel.getD (1 * 3 + 2) 0 = -1 from rfl,
    show sharpenKernel.getD (2 * 3 + 0) 0 = 0 from rfl,
    show sharpenKernel.getD (2 * 3 + 1) 0 = -1 from rfl,
    show sharpenKernel.getD (2 * 3 + 2) 0 = 0 from rfl]
  simp only [zero_mul, ite_self, Nat.cast_ofNat, Nat.cast_one, Nat.cast_zero]
  rw [show ((y:ℤ) + 0 - 1) = (y:ℤ) - 1 from by ring,
    show ((y:ℤ) + 1 - 1) = (y:ℤ) from by ring,
    show ((y:ℤ) + 2 - 1) = (y:ℤ) + 1 from by ring,
    show ((x:ℤ) + 0 - 1) = (x:ℤ) - 1 from by ring,
    show ((x:ℤ) + 1 - 1) = (x:ℤ) from by ring,
    show ((x:ℤ) + 2 - 1) = (x:ℤ) + 1 from by ring]
  split_ifs <;> ring

/-- C7. With the fixed sharpening kernel `[[0,-1,0],[-1,5,-1],[0,-1,0]]`,
every output pixel's red, green and blue channels equal the weighted sum
of the 3x3 neighborhood read from the pre-convolution snapshot (the
weighted sum being `5*center - up - down - left - right`, out-of-bounds
neighbors contributing zero), clamped to `[0, 255]`, and the output alpha
is forced to 255; for a 1x1 image each output channel equals
`clamp(5 * pixelValue, 0, 255)`. -/
theorem c7_sharpen_convolution :
    (∀ (img : Image) (x y : ℕ), x < img.w → y < img.h →
      (applyConvolution img sharpenKernel).data.getD (y * img.w + x) ⟨0, 0, 0, 0⟩
        = { r := clampInt (5 * nbCh img Pix.r x y - nbCh img Pix.r x ((y:ℤ) - 1)
                  - nbCh img Pix.r x ((y:ℤ) + 1) - nbCh img Pix.r ((x:ℤ) - 1) y
                  - nbCh img Pix.r ((x:ℤ) + 1) y),
            g := clampInt (5 * nbCh img Pix.g x y - nbCh img Pix.g x ((y:ℤ) - 1)
                  - nbCh img Pix.g x ((y:ℤ) + 1) - nbCh img Pix.g ((x:ℤ) - 1) y
                  - nbCh img Pix.g ((x:ℤ) + 1) y),
            b := clampInt (5 * nbCh img Pix.b x y - nbCh img Pix.b x ((y:ℤ) - 1)
                  - nbCh img Pix.b x ((y:ℤ) + 1) - nbCh img Pix.b ((x:ℤ) - 1) y
                  - nbCh img Pix.b ((x:ℤ) + 1) y),
            a := 255 })
    ∧ (∀ p : Pix, (applyConvolution ⟨1, 1, [p]⟩ sharpenKernel).data.length = 1
        ∧ (applyConvolution ⟨1, 1, [p]⟩ sharpenKernel).data.getD 0 ⟨0, 0, 0, 0⟩
          = ⟨clampInt (5 * p.r), clampInt (5 * p.g), clampInt (5 * p.b), 255⟩) := by
  have hside : roundSqrt sharpenKernel.length = 3 := by
    rw [show sharpenKernel.length = 9 from rfl]
    norm_num [roundSqrt]
  have hmain : ∀ (img : Image) (x y : ℕ), x < img.w → y < img.h →
      (applyConvolution img sharpenKernel).data.getD (y * img.w + x) ⟨0, 0, 0, 0⟩
        = { r := clampInt (5 * nbCh img Pix.r x y - nbCh img Pix.r x ((y:ℤ) - 1)
                  - nbCh img Pix.r x ((y:ℤ) + 1) - nbCh img Pix.r ((x:ℤ) - 1) y
                  - nbCh img Pix.r ((x:ℤ) + 1) y),
            g := clampInt (5 * nbCh img Pix.g x y - nbCh img Pix.g x ((y:ℤ) - 1)
                  - nbCh img Pix.g x ((y:ℤ) + 1) - nbCh img Pix.g ((x:ℤ) - 1) y
                  - nbCh img Pix.g ((x:ℤ) + 1) y),
            b := clampInt (5 * nbCh img Pix.b x y - nbCh img Pix.b x ((y:ℤ) - 1)
                  - nbCh img Pix.b x ((y:ℤ) + 1) - nbCh img Pix.b ((x:ℤ) - 1) y
                  - nbCh img Pix.b ((x:ℤ) + 1) y),
            a := 255 } := by
    intro img x y hx hy
    simp only [applyConvolution, hside]
    rw [show (3 : ℕ) / 2 = 1 from rfl]
    rw [grid_getD img.h img.w _ x y hx hy]
    rw [convSum_sharpen img Pix.r x y, convSum_sharpen img Pix.g x y,
      convSum_sharpen img Pix.b x y]
  refine ⟨hmain, fun p => ⟨?_, ?_⟩⟩
  · show (((List.range 1).map (fun yy => (List.range 1).map (fun xx =>
        ({ r := clampInt (convSum ⟨1, 1, [p]⟩ sharpenKernel
              (roundSqrt sharpenKernel.length) (roundSqrt sharpenKernel.length / 2) Pix.r xx yy),
           g := clampInt (convSum ⟨1, 1, [p]⟩ sharpenKernel
              (roundSqrt sharpenKernel.length) (roundSqrt sharpenKernel.length / 2) Pix.g xx yy),
           b := clampInt (convSum ⟨1, 1, [p]⟩ sharpenKernel
              (roundSqrt sharpenKernel.length) (roundSqrt sharpenKernel.length / 2) Pix.b xx yy),
           a := 255 } : Pix)))).flatten).length = 1
    rw [gridLen]
  · have h := hmain ⟨1, 1, [p]⟩ 0 0 (Nat.zero_lt_one) (Nat.zero_lt_one)
    rw [show (0 * (⟨1, 1, [p]⟩ : Image).w + 0) = 0 from rfl] at h
    rw [h]
    norm_num [nbCh, getPx]

theorem trimList_id {l : List Char} (c d : Char) (rest rest2 : List Char)
    (hc : l = c :: rest) (hcw : trimWs c = false)
    (hd : l.reverse = d :: rest2) (hdw : trimWs d = false) : trimList l = l := by
  unfold trimList
  rw [hc, List.dropWhile_cons, if_neg (by simp [hcw]), ← hc, hd, List.dropWhile_cons,
    if_neg (by simp [hdw]), ← hd, List.reverse_reverse]

theorem trimList_fenced (w : List Char) :
    trimList (("```json".data ++ w) ++ "```".data) = ("```json".data ++ w) ++ "```".data := by
  apply trimList_id '`' '`' (("``json".data ++ w) ++ "```".data)
    ("``".data ++ (w.reverse ++ "```json".data.reverse))
  · rfl
  · decide
  · rw [List.reverse_append, List.reverse_append]
    rfl
  · decide

theorem findSub_tick_free {w : List Char} (hw : '`' ∉ w) :
    findSub tick3 (w ++ tick3) = some w.length := by
  induction w with
  | nil => rfl
  | cons c cs ih =>
    have hc : c ≠ '`' := fun h => hw (h ▸ List.mem_cons_self c cs)
    have hnp : ¬ tick3.isPrefixOf (c :: (cs ++ tick3)) = true := by
      intro hp
      rw [show tick3.isPrefixOf (c :: (cs ++ tick3))
          = ('`' == c && ("``".data.isPrefixOf (cs ++ tick3))) from rfl] at hp
      rw [Bool.and_eq_true, beq_iff_eq] at hp
      exact hc hp.1.symm
    show findSub tick3 (c :: (cs ++ tick3)) = some (cs.length + 1)
    unfold findSub
    rw [if_neg hnp, ih (fun h => hw (List.mem_cons_of_mem c h))]
    rfl

theorem go_nil (n : ℕ) : fenceReplaceGo n [] = [] := by
  cases n with
  | zero => rfl
  | succ m => rfl

theorem prefBool_self (p t : List Char) : p.isPrefixOf (p ++ t) = true :=
  (prefBool_iff _ _).mpr (List.prefix_append p t)

theorem fenceStep_fenced (w : List Char) (hw : '`' ∉ w) :
    fenceStep (("```json".data ++ w) ++ "```".data) = some ([], w, []) := by
  have hin := findSub_tick_free hw
  unfold fenceStep
  rw [show findSub tick3 (("```json".data ++ w) ++ "```".data) = some 0 from rfl]
  dsimp only
  rw [show List.drop (0 + 3) (['`', '`', '`', 'j', 's', 'o', 'n'] ++ w ++ ['`', '`', '`'])
      = jsonTag ++ (w ++ ['`', '`', '`']) from rfl]
  rw [prefBool_self jsonTag (w ++ ['`', '`', '`'])]
  rw [if_pos rfl]
  rw [show List.drop 4 (jsonTag ++ (w ++ ['`', '`', '`'])) = w ++ tick3 from rfl]
  rw [hin]
  dsimp only
  rw [List.take_left, drop_app]
  rfl

theorem fenceReplace_fenced (w : List Char) (hw : '`' ∉ w) :
    fenceReplace (("```json".data ++ w) ++ "```".data) = w := by
  unfold fenceReplace
  have hlen : ((("```json".data ++ w) ++ "```".data)).length = (w.length + 9) + 1 := by
    simp [List.length_append]
  rw [hlen]
  have hstep : ∀ (n : ℕ) (l : List Char), fenceReplaceGo (n + 1) l
      = (match fenceStep l with
         | none => l
         | some (b, cap, rest) => b ++ cap ++ fenceReplaceGo n rest) := fun n l => rfl
  rw [hstep, fenceStep_fenced w hw]
  show [] ++ w ++ fenceReplaceGo (w.length + 9) [] = w
  rw [go_nil]
  simp

/-- C1 counterexample: `0` is valid JSON, yet
`safeJsonParse("```json\n0\n```")` throws — every recovery strategy is
gated by JavaScript truthiness (`if (result) return result`), and the
fence-stripping strategy parses `0`, a falsy value, so finalization falls
through every strategy and raises instead of succeeding via fence
stripping. -/
theorem c1_counterexample :
    jsonParse (trimList "\n0\n".data) = .ok (.num ['0'])
    ∧ safeJsonParse (("```json".data ++ "\n0\n".data) ++ "```".data) = .error () :=
  ⟨rfl, rfl⟩

/-- C1 as amended: finalization tries the strategies in the claimed order,
but a strategy succeeds only when its parse result is *truthy* (not
`null`, `false`, zero or the empty string). For every buffer that is
valid JSON wrapped in a triple-backtick `json` fence (the payload holding
no backtick) whose document parses to a truthy value, finalization
succeeds via fence stripping and returns that value; when every strategy
fails or yields a falsy value, finalization raises a parse error. -/
theorem c1_fence_recovery (w : List Char) (v : Json) (hw : '`' ∉ w)
    (hparse : jsonParse (trimList w) = .ok v) (htru : truthy v = true) :
    safeJsonParse (("```json".data ++ w) ++ "```".data) = .ok v := by
  have htrim := trimList_fenced w
  have hatt : attempt (("```json".data ++ w) ++ "```".data) = none := rfl
  have hcont : containsSub tick3 (("```json".data ++ w) ++ "```".data) = true := rfl
  have hattw : attempt (trimList w) = some v := by
    unfold attempt tryParse
    rw [hparse]
    show (if truthy v = true then some v else none) = some v
    rw [if_pos htru]
  unfold safeJsonParse
  rw [htrim]
  rw [if_neg (by
    rw [show ((("```json".data ++ w) ++ "```".data)).isEmpty = false from rfl]
    decide)]
  rw [hatt, hcont, fenceReplace_fenced w hw, hattw]
  rfl

/-- Witness for C1 (amended): a fenced truthy JSON object is recovered by
fence stripping. -/
theorem c1_fence_recovery_witness :
    safeJsonParse (("```json".data ++ "\n\x7b\"a\": 1\x7d\n".data) ++ "```".data)
      = .ok (.obj [("a".data, .num ['1'])]) :=
  c1_fence_recovery "\n\x7b\"a\": 1\x7d\n".data (.obj [("a".data, .num ['1'])])
    (by decide) rfl rfl

theorem dropWhile_all {l : List Char} (h : ∀ c ∈ l, trimWs c = true) :
    List.dropWhile trimWs l = [] := by
  induction l with
  | nil => rfl
  | cons a as ih =>
    rw [List.dropWhile_cons, if_pos (by simp [h a (by simp)])]
    exact ih (fun c hc => h c (by simp [hc]))

theorem trimList_all {l : List Char} (h : ∀ c ∈ l, trimWs c = true) : trimList l = [] := by
  unfold trimList
  rw [dropWhile_all h]
  rfl

/-- C10. `safeJsonParse` returns the empty object (rather than raising)
on every input whose trim is empty, and `performCognitiveSearch` on a
stream whose concatenated fragments are empty or whitespace-only yields
the empty structured result `{}` instead of a parse failure. -/
theorem c10_empty_stream :
    (∀ s : List Char, trimList s = [] → safeJsonParse s = .ok (.obj []))
    ∧ (∀ frags : List (List Char), (∀ f ∈ frags, ∀ c ∈ f, trimWs c = true) →
        performCognitiveSearchFinal frags.flatten = .ok (.obj [])) := by
  have base : ∀ s : List Char, trimList s = [] → safeJsonParse s = .ok (.obj []) := by
    intro s hs
    unfold safeJsonParse
    rw [hs]
    rfl
  refine ⟨base, fun frags hf => ?_⟩
  unfold performCognitiveSearchFinal
  by_cases h : frags.flatten.isEmpty = true
  · rw [if_pos h]
    rfl
  · rw [if_neg h]
    apply base
    apply trimList_all
    intro c hc
    obtain ⟨f, hfm, hcf⟩ := List.mem_flatten.mp hc
    exact hf f hfm c hcf

/-- Witness for C10: a whitespace-only two-fragment stream yields the
empty object. -/
theorem c10_empty_stream_witness :
    performCognitiveSearchFinal ([" ".data, "\n\t".data].flatten) = .ok (.obj []) :=
  c10_empty_stream.2 [" ".data, "\n\t".data] (by decide)

/-- Witness for C7: the 1x1 conjunct at a concrete pixel. -/
theorem c7_sharpen_convolution_witness :
    (applyConvolution ⟨1, 1, [⟨9, 8, 7, 6⟩]⟩ sharpenKernel).data.getD 0 ⟨0, 0, 0, 0⟩
      = ⟨clampInt (5 * 9), clampInt (5 * 8), clampInt (5 * 7), 255⟩ :=
  (c7_sharpen_convolution.2 ⟨9, 8, 7, 6⟩).2

end Latency

